import Mathlib

/-!
Shallow embedding of `src/EchoContext.c` (Apple "Echo" sample): a per-connection
context for a line-oriented echo service.  The protocol part (receive buffer,
line detection, flush, idle timer) is modelled over `List Nat` byte sequences;
the lifecycle part (retain/release/close/create) over an explicit record of the
context's fields.  All definitions are translated from the C source.
-/

/-- The line terminator searched for by `memchr(start, FF, ...)` in
`_EchoContextHandleCanAcceptBytes`: the linefeed byte 0x0A. -/
def terminator : Nat := 10

/-- `kTimeOutInSeconds = 60` from the source. -/
def kTimeOutInSeconds : Nat := 60

/-- Protocol-visible state of a context while open: the receive buffer
`_rcvdBytes` (a byte sequence) and the timer's next fire date
(`CFRunLoopTimerSetNextFireDate` target, as an abstract absolute time). -/
structure EchoState where
  buf : List Nat
  timerFireDate : Nat
deriving Repr, DecidableEq

/-- `memchr(start, terminator, len)` over the buffer: index of the first
terminator byte, if any. -/
def memchrLF : List Nat → Option Nat
  | [] => none
  | b :: rest => if b = terminator then some 0 else (memchrLF rest).map (fun k => k + 1)

/-- `_EchoContextHandleCanAcceptBytes`, parametrised by the outbound channel's
behaviour: `write n` is the `CFIndex` returned by `CFWriteStreamWrite` when
offered `n` bytes (≤ 0 means would-block / error).  Following the source: find
the first linefeed, reset the timer to now + timeout, and if a linefeed was
found at offset `k`, attempt a single write of bytes `[0, k]`; if the write
returns a positive count, delete that many bytes from the front of the buffer.
Returns the new state together with the list of write attempts made, each as
(bytes offered, CFIndex returned). -/
def handleCanAcceptBytes (now : Nat) (write : Nat → Int) (s : EchoState) :
    EchoState × List (List Nat × Int) :=
  match memchrLF s.buf with
  | none => ({ s with timerFireDate := now + kTimeOutInSeconds }, [])
  | some k =>
      let attempt := s.buf.take (k + 1)
      let bytesWritten := write (k + 1)
      if 0 < bytesWritten then
        ({ buf := s.buf.drop bytesWritten.toNat,
           timerFireDate := now + kTimeOutInSeconds }, [(attempt, bytesWritten)])
      else
        ({ s with timerFireDate := now + kTimeOutInSeconds }, [(attempt, bytesWritten)])

/-- `_EchoContextHandleHasBytesAvailable`, parametrised by the read result and
the outbound channel.  `chunk` is the byte sequence returned by
`CFReadStreamRead` (empty models `bytesRead ≤ 0`; a real read returns at most
2048 bytes, which does not matter for the properties proved here).  Following
the source: reset the timer unconditionally; if the read was positive, append
the bytes to the buffer and, if `CFWriteStreamCanAcceptBytes` (the `canAccept`
flag) holds, immediately run the flush handler. -/
def handleHasBytesAvailable (now : Nat) (write : Nat → Int) (canAccept : Bool)
    (chunk : List Nat) (s : EchoState) : EchoState × List (List Nat × Int) :=
  let s1 : EchoState := { s with timerFireDate := now + kTimeOutInSeconds }
  if 0 < chunk.length then
    let s2 : EchoState := { s1 with buf := s1.buf ++ chunk }
    if canAccept then handleCanAcceptBytes now write s2 else (s2, [])
  else (s1, [])

/-- Events delivered by the run loop to an open context's stream callbacks. -/
inductive EchoEvent where
  | hasBytesAvailable (chunk : List Nat) (canAccept : Bool)
  | canAcceptBytes
deriving Repr, DecidableEq

/-- Dispatch of one event (with its delivery time) to the matching handler,
as in `_ReadStreamCallBack` / `_WriteStreamCallBack`. -/
def stepEvent (write : Nat → Int) (now : Nat) (s : EchoState) :
    EchoEvent → EchoState × List (List Nat × Int)
  | .hasBytesAvailable chunk ca => handleHasBytesAvailable now write ca chunk s
  | .canAcceptBytes => handleCanAcceptBytes now write s

/-- Run a sequence of timed events, accumulating all write attempts. -/
def run (write : Nat → Int) (s : EchoState) :
    List (Nat × EchoEvent) → EchoState × List (List Nat × Int)
  | [] => (s, [])
  | (now, e) :: evs =>
      let r1 := stepEvent write now s e
      let r2 := run write r1.1 evs
      (r2.1, r1.2 ++ r2.2)

/-- Bytes actually accepted by the outbound channel, per attempt: of an attempt
`(a, w)` with positive return `w`, the channel consumed the first `w` bytes of
`a`; attempts returning ≤ 0 consumed nothing. -/
def acceptedWrites : List (List Nat × Int) → List (List Nat)
  | [] => []
  | (a, w) :: rest =>
      if 0 < w then a.take w.toNat :: acceptedWrites rest else acceptedWrites rest

/-- An outbound channel that accepts every byte offered. -/
def fullWrite : Nat → Int := fun n => (n : Int)

/-- All input bytes carried by a sequence of events. -/
def inputOf : List (Nat × EchoEvent) → List Nat
  | [] => []
  | (_, .hasBytesAvailable chunk _) :: evs => chunk ++ inputOf evs
  | (_, .canAcceptBytes) :: evs => inputOf evs

/-- `m` writable events (at time 0, which only affects the timer). -/
def drainEvents (m : Nat) : List (Nat × EchoEvent) :=
  List.replicate m ((0 : Nat), EchoEvent.canAcceptBytes)

/-- A sequence of readable events: each read is (delivery time, whether the
outbound channel can currently accept bytes, bytes read). -/
def readEvents (reads : List (Nat × Bool × List Nat)) : List (Nat × EchoEvent) :=
  reads.map (fun r => (r.1, EchoEvent.hasBytesAvailable r.2.2 r.2.1))

/-- The whole inbound byte sequence of such a read list. -/
def inputBytes (reads : List (Nat × Bool × List Nat)) : List Nat :=
  List.flatten (reads.map (fun r => r.2.2))

/-- A complete line: nonempty, with its first terminator exactly at its last
position (so a maximal run of input bytes ending in the terminator). -/
def isLine (l : List Nat) : Prop := l ≠ [] ∧ memchrLF l = some (l.length - 1)

instance (l : List Nat) : Decidable (isLine l) := by
  unfold isLine; infer_instance

theorem memchrLF_some_lt (xs : List Nat) (k : Nat) (h : memchrLF xs = some k) :
    k < xs.length := by
  induction xs generalizing k with
  | nil => simp [memchrLF] at h
  | cons b rest ih =>
      simp only [memchrLF] at h
      by_cases hb : b = terminator
      · rw [if_pos hb] at h
        cases h
        simp only [List.length_cons]
        omega
      · rw [if_neg hb] at h
        cases hm : memchrLF rest with
        | none => rw [hm] at h; simp at h
        | some k0 =>
            rw [hm] at h
            simp only [Option.map_some', Option.some.injEq] at h
            have hlt := ih k0 hm
            simp only [List.length_cons]
            omega

/-- Splitting of a byte sequence into its successive complete lines (each
maximal run up to and including a terminator); bytes after the last
terminator are not part of any line. -/
def linesOf (buf : List Nat) : List (List Nat) :=
  match h : memchrLF buf with
  | none => []
  | some k => buf.take (k + 1) :: linesOf (buf.drop (k + 1))
termination_by buf.length
decreasing_by
  have hk := memchrLF_some_lt buf k h
  simp only [List.length_drop]
  omega

/-- The trailing bytes of a sequence after all its complete lines. -/
def lineRest (buf : List Nat) : List Nat :=
  match h : memchrLF buf with
  | none => buf
  | some k => lineRest (buf.drop (k + 1))
termination_by buf.length
decreasing_by
  have hk := memchrLF_some_lt buf k h
  simp only [List.length_drop]
  omega

theorem linesOf_of_none (buf : List Nat) (h : memchrLF buf = none) :
    linesOf buf = [] := by
  rw [linesOf]
  split
  · rfl
  · rename_i k hk; rw [h] at hk; cases hk

theorem linesOf_of_some (buf : List Nat) (k : Nat) (h : memchrLF buf = some k) :
    linesOf buf = buf.take (k + 1) :: linesOf (buf.drop (k + 1)) := by
  rw [linesOf]
  split
  · rename_i hn; rw [h] at hn; cases hn
  · rename_i k2 hk; rw [h] at hk; cases hk; rfl

theorem lineRest_of_none (buf : List Nat) (h : memchrLF buf = none) :
    lineRest buf = buf := by
  rw [lineRest]
  split
  · rfl
  · rename_i k hk; rw [h] at hk; cases hk

theorem lineRest_of_some (buf : List Nat) (k : Nat) (h : memchrLF buf = some k) :
    lineRest buf = lineRest (buf.drop (k + 1)) := by
  rw [lineRest]
  split
  · rename_i hn; rw [h] at hn; cases hn
  · rename_i k2 hk; rw [h] at hk; cases hk; rfl

theorem memchrLF_eq_none_iff (xs : List Nat) :
    memchrLF xs = none ↔ terminator ∉ xs := by
  induction xs with
  | nil => simp [memchrLF]
  | cons b rest ih =>
      simp only [memchrLF]
      by_cases hb : b = terminator
      · rw [if_pos hb]
        simp [hb]
      · rw [if_neg hb]
        rw [Option.map_eq_none', ih]
        simp only [List.mem_cons, not_or]
        constructor
        · intro h
          exact ⟨fun he => hb he.symm, h⟩
        · intro h
          exact h.2

/-- `memchrLF` returns exactly the index of the first terminator: the byte
there is the terminator and no earlier byte is. -/
theorem memchrLF_eq_some_iff (xs : List Nat) (k : Nat) :
    memchrLF xs = some k ↔
      xs[k]? = some terminator ∧ ∀ j, j < k → xs[j]? ≠ some terminator := by
  induction xs generalizing k with
  | nil => simp [memchrLF]
  | cons b rest ih =>
      simp only [memchrLF]
      by_cases hb : b = terminator
      · rw [if_pos hb]
        cases k with
        | zero => simp [hb]
        | succ k1 =>
            constructor
            · intro h; cases h
            · rintro ⟨h1, h2⟩
              exact absurd (by simp [hb] : (b :: rest)[0]? = some terminator)
                (h2 0 (Nat.succ_pos k1))
      · rw [if_neg hb]
        cases k with
        | zero =>
            constructor
            · intro h
              cases hm : memchrLF rest with
              | none => rw [hm] at h; simp at h
              | some k0 => rw [hm] at h; simp at h
            · rintro ⟨h1, h2⟩
              rw [List.getElem?_cons_zero, Option.some.injEq] at h1
              exact absurd h1 hb
        | succ k1 =>
            constructor
            · intro h
              have hm : memchrLF rest = some k1 := by
                cases hm2 : memchrLF rest with
                | none => rw [hm2] at h; simp at h
                | some k0 =>
                    rw [hm2] at h
                    simp only [Option.map_some', Option.some.injEq] at h
                    simp only [Option.some.injEq]
                    omega
              obtain ⟨h1, h2⟩ := (ih k1).mp hm
              refine ⟨by rw [List.getElem?_cons_succ]; exact h1, ?_⟩
              intro j hj
              cases j with
              | zero =>
                  rw [List.getElem?_cons_zero]
                  exact fun hc => hb (Option.some.inj hc)
              | succ j1 =>
                  rw [List.getElem?_cons_succ]
                  exact h2 j1 (by omega)
            · rintro ⟨h1, h2⟩
              have h1r : rest[k1]? = some terminator := by
                rw [List.getElem?_cons_succ] at h1
                exact h1
              have h2r : ∀ j, j < k1 → rest[j]? ≠ some terminator := by
                intro j hj
                have hh := h2 (j + 1) (by omega)
                rw [List.getElem?_cons_succ] at hh
                exact hh
              rw [(ih k1).mpr ⟨h1r, h2r⟩]
              rfl

theorem memchrLF_append_left (xs ys : List Nat) (k : Nat)
    (h : memchrLF xs = some k) : memchrLF (xs ++ ys) = some k := by
  induction xs generalizing k with
  | nil => simp [memchrLF] at h
  | cons b rest ih =>
      simp only [List.cons_append, List.append_eq, memchrLF] at h ⊢
      by_cases hb : b = terminator
      · rw [if_pos hb] at h ⊢
        exact h
      · rw [if_neg hb] at h ⊢
        cases hm : memchrLF rest with
        | none => rw [hm] at h; simp at h
        | some k0 =>
            rw [hm] at h
            simp only [Option.map_some', Option.some.injEq] at h
            rw [ih k0 hm]
            simp [h]

theorem memchrLF_take (xs : List Nat) (k : Nat) (h : memchrLF xs = some k) :
    memchrLF (xs.take (k + 1)) = some k := by
  induction xs generalizing k with
  | nil => simp [memchrLF] at h
  | cons b rest ih =>
      simp only [memchrLF] at h
      by_cases hb : b = terminator
      · rw [if_pos hb] at h
        cases h
        simp [memchrLF, hb]
      · rw [if_neg hb] at h
        cases hm : memchrLF rest with
        | none => rw [hm] at h; simp at h
        | some k0 =>
            rw [hm] at h
            simp only [Option.map_some', Option.some.injEq] at h
            subst h
            rw [List.take_succ_cons]
            simp only [memchrLF]
            rw [if_neg hb, ih k0 hm]
            rfl

/-- The line cut out at the first terminator is a complete line. -/
theorem isLine_take (xs : List Nat) (k : Nat) (h : memchrLF xs = some k) :
    isLine (xs.take (k + 1)) := by
  have hk := memchrLF_some_lt xs k h
  have hlen : (xs.take (k + 1)).length = k + 1 := by
    rw [List.length_take]
    omega
  constructor
  · intro hnil
    rw [hnil] at hlen
    simp at hlen
  · rw [hlen]
    simpa using memchrLF_take xs k h

theorem handleCanAcceptBytes_none (now : Nat) (write : Nat → Int) (s : EchoState)
    (h : memchrLF s.buf = none) :
    handleCanAcceptBytes now write s =
      ({ s with timerFireDate := now + kTimeOutInSeconds }, []) := by
  unfold handleCanAcceptBytes
  rw [h]

theorem handleCanAcceptBytes_some (now : Nat) (write : Nat → Int) (s : EchoState)
    (k : Nat) (h : memchrLF s.buf = some k) :
    handleCanAcceptBytes now write s =
      if 0 < write (k + 1) then
        ({ buf := s.buf.drop (write (k + 1)).toNat,
           timerFireDate := now + kTimeOutInSeconds },
          [(s.buf.take (k + 1), write (k + 1))])
      else
        ({ s with timerFireDate := now + kTimeOutInSeconds },
          [(s.buf.take (k + 1), write (k + 1))]) := by
  unfold handleCanAcceptBytes
  rw [h]

theorem handleCanAcceptBytes_full_some (now : Nat) (s : EchoState) (k : Nat)
    (h : memchrLF s.buf = some k) :
    handleCanAcceptBytes now fullWrite s =
      ({ buf := s.buf.drop (k + 1), timerFireDate := now + kTimeOutInSeconds },
        [(s.buf.take (k + 1), ((k + 1 : Nat) : Int))]) := by
  rw [handleCanAcceptBytes_some now fullWrite s k h]
  have hpos : (0 : Int) < fullWrite (k + 1) := by
    simp [fullWrite]
  rw [if_pos hpos]
  simp [fullWrite]

theorem acceptedWrites_append (t1 t2 : List (List Nat × Int)) :
    acceptedWrites (t1 ++ t2) = acceptedWrites t1 ++ acceptedWrites t2 := by
  induction t1 with
  | nil => rfl
  | cons a t ih =>
      obtain ⟨al, aw⟩ := a
      by_cases hw : 0 < aw
      · simp [acceptedWrites, hw, ih]
      · simp [acceptedWrites, hw, ih]

theorem acceptedWrites_single_pos (l : List Nat) (n : Nat) (h0 : 0 < n)
    (hn : l.length ≤ n) : acceptedWrites [(l, (n : Int))] = [l] := by
  have hp : (0 : Int) < (n : Int) := by exact_mod_cast h0
  simp [acceptedWrites, hp, List.take_of_length_le hn]

/-- Conservation for one flush against a fully accepting channel: the bytes
accepted and the bytes remaining concatenate back to the original buffer, and
every accepted chunk is a complete line. -/
theorem handleCanAcceptBytes_full_conserves (now : Nat) (s : EchoState) :
    List.flatten (acceptedWrites (handleCanAcceptBytes now fullWrite s).2) ++
        (handleCanAcceptBytes now fullWrite s).1.buf = s.buf ∧
    ∀ l ∈ acceptedWrites (handleCanAcceptBytes now fullWrite s).2, isLine l := by
  cases hm : memchrLF s.buf with
  | none =>
      rw [handleCanAcceptBytes_none now fullWrite s hm]
      simp [acceptedWrites]
  | some k =>
      rw [handleCanAcceptBytes_full_some now s k hm]
      have hk := memchrLF_some_lt s.buf k hm
      have hlen : (s.buf.take (k + 1)).length ≤ k + 1 := by
        rw [List.length_take]
        omega
      rw [acceptedWrites_single_pos _ _ (Nat.succ_pos k) hlen]
      constructor
      · simp [List.take_append_drop]
      · intro l hl
        simp only [List.mem_singleton] at hl
        subst hl
        exact isLine_take s.buf k hm

/-- The input bytes carried by a single event. -/
def eventInput : EchoEvent → List Nat
  | .hasBytesAvailable chunk _ => chunk
  | .canAcceptBytes => []

theorem inputOf_cons (now : Nat) (e : EchoEvent) (evs : List (Nat × EchoEvent)) :
    inputOf ((now, e) :: evs) = eventInput e ++ inputOf evs := by
  cases e <;> rfl

/-- Conservation for one dispatched event under a fully accepting channel. -/
theorem stepEvent_full_conserves (now : Nat) (s : EchoState) (e : EchoEvent) :
    List.flatten (acceptedWrites (stepEvent fullWrite now s e).2) ++
        (stepEvent fullWrite now s e).1.buf = s.buf ++ eventInput e ∧
    ∀ l ∈ acceptedWrites (stepEvent fullWrite now s e).2, isLine l := by
  cases e with
  | canAcceptBytes =>
      have hc := handleCanAcceptBytes_full_conserves now s
      simpa [stepEvent, eventInput] using hc
  | hasBytesAvailable chunk ca =>
      simp only [stepEvent, handleHasBytesAvailable, eventInput]
      by_cases hlen : 0 < chunk.length
      · rw [if_pos hlen]
        cases ca with
        | false =>
            simp [acceptedWrites]
        | true =>
            simp only [if_pos rfl]
            have hc := handleCanAcceptBytes_full_conserves now
              { buf := s.buf ++ chunk, timerFireDate := now + kTimeOutInSeconds }
            simpa using hc
      · rw [if_neg hlen]
        have : chunk = [] := by
          cases chunk with
          | nil => rfl
          | cons c cs => simp at hlen
        subst this
        simp [acceptedWrites]

/-- Conservation for a whole event run under a fully accepting channel: the
bytes the channel accepted, followed by the bytes still buffered, are exactly
the initial buffer followed by all input bytes, and every accepted chunk is a
complete line. -/
theorem run_full_conserves (evs : List (Nat × EchoEvent)) (s : EchoState) :
    List.flatten (acceptedWrites (run fullWrite s evs).2) ++
        (run fullWrite s evs).1.buf = s.buf ++ inputOf evs ∧
    ∀ l ∈ acceptedWrites (run fullWrite s evs).2, isLine l := by
  induction evs generalizing s with
  | nil => simp [run, acceptedWrites, inputOf]
  | cons p evs ih =>
      obtain ⟨now, e⟩ := p
      have hst := stepEvent_full_conserves now s e
      have ihs := ih (stepEvent fullWrite now s e).1
      simp only [run]
      rw [inputOf_cons, acceptedWrites_append, List.flatten_append]
      constructor
      · rw [List.append_assoc, ihs.1, ← List.append_assoc, hst.1, List.append_assoc]
      · intro l hl
        rcases List.mem_append.mp hl with h1 | h2
        · exact hst.2 l h1
        · exact ihs.2 l h2

/-- Draining: starting from any state, as many writable events as there are
complete lines in the buffer make a fully accepting channel consume exactly
those lines, leaving a buffer with no terminator. -/
theorem run_drain (n : Nat) : ∀ s : EchoState, s.buf.length ≤ n →
    acceptedWrites (run fullWrite s (drainEvents (linesOf s.buf).length)).2
        = linesOf s.buf ∧
    memchrLF (run fullWrite s (drainEvents (linesOf s.buf).length)).1.buf
        = none := by
  induction n with
  | zero =>
      intro s hs
      have hnil : s.buf = [] := List.length_eq_zero.mp (Nat.le_zero.mp hs)
      have hm : memchrLF s.buf = none := by rw [hnil]; rfl
      rw [linesOf_of_none _ hm]
      simp only [List.length_nil, drainEvents, List.replicate, run, acceptedWrites]
      exact ⟨trivial, hm⟩
  | succ n ih =>
      intro s hs
      cases hm : memchrLF s.buf with
      | none =>
          rw [linesOf_of_none _ hm]
          simp only [List.length_nil, drainEvents, List.replicate, run, acceptedWrites]
          exact ⟨trivial, hm⟩
      | some k =>
          rw [linesOf_of_some _ k hm]
          have hd : drainEvents
                ((s.buf.take (k + 1) :: linesOf (s.buf.drop (k + 1))).length)
              = ((0 : Nat), EchoEvent.canAcceptBytes) ::
                  drainEvents (linesOf (s.buf.drop (k + 1))).length := by
            simp [drainEvents, List.replicate]
          rw [hd]
          simp only [run, stepEvent]
          rw [handleCanAcceptBytes_full_some 0 s k hm]
          have hk := memchrLF_some_lt s.buf k hm
          have ih2 := ih { buf := s.buf.drop (k + 1),
                           timerFireDate := 0 + kTimeOutInSeconds }
            (by simp only [List.length_drop]; omega)
          rw [acceptedWrites_append]
          have hone : acceptedWrites [(s.buf.take (k + 1), ((k + 1 : Nat) : Int))]
              = [s.buf.take (k + 1)] := by
            refine acceptedWrites_single_pos _ _ (Nat.succ_pos k) ?_
            rw [List.length_take]
            omega
          rw [hone]
          refine ⟨?_, ih2.2⟩
          rw [ih2.1]
          rfl

theorem linesOf_line_append (l y : List Nat) (h : isLine l) :
    linesOf (l ++ y) = l :: linesOf y := by
  obtain ⟨hne, hm⟩ := h
  have hlen : 0 < l.length := List.length_pos.mpr hne
  have hm2 : memchrLF (l ++ y) = some (l.length - 1) :=
    memchrLF_append_left l y _ hm
  rw [linesOf_of_some _ _ hm2]
  have h1 : l.length - 1 + 1 = l.length := by omega
  rw [h1, List.take_left, List.drop_left]

theorem linesOf_flatten_append (ls : List (List Nat)) (y : List Nat)
    (h : ∀ l ∈ ls, isLine l) :
    linesOf (List.flatten ls ++ y) = ls ++ linesOf y := by
  induction ls with
  | nil => simp
  | cons l ls ih =>
      rw [List.flatten_cons, List.append_assoc,
        linesOf_line_append _ _ (h l (List.mem_cons_self l ls)),
        ih (fun x hx => h x (List.mem_cons_of_mem l hx))]
      rfl

/-- Structure of the line split: the complete lines followed by the terminator-
free remainder reconstruct the sequence, and every line is a complete line. -/
theorem linesOf_structure (n : Nat) : ∀ buf : List Nat, buf.length ≤ n →
    List.flatten (linesOf buf) ++ lineRest buf = buf ∧
    memchrLF (lineRest buf) = none ∧
    ∀ l ∈ linesOf buf, isLine l := by
  induction n with
  | zero =>
      intro buf hb
      have hnil : buf = [] := List.length_eq_zero.mp (Nat.le_zero.mp hb)
      subst hnil
      have hm : memchrLF [] = none := rfl
      rw [linesOf_of_none _ hm, lineRest_of_none _ hm]
      simp [hm]
  | succ n ih =>
      intro buf hb
      cases hm : memchrLF buf with
      | none =>
          rw [linesOf_of_none _ hm, lineRest_of_none _ hm]
          simp [hm]
      | some k =>
          rw [linesOf_of_some _ k hm, lineRest_of_some _ k hm]
          have hk := memchrLF_some_lt buf k hm
          have ih2 := ih (buf.drop (k + 1))
            (by simp only [List.length_drop]; omega)
          refine ⟨?_, ih2.2.1, ?_⟩
          · rw [List.flatten_cons, List.append_assoc, ih2.1,
              List.take_append_drop]
          · intro l hl
            rcases List.mem_cons.mp hl with h1 | h2
            · subst h1
              exact isLine_take buf k hm
            · exact ih2.2.2 l h2

theorem inputOf_readEvents (reads : List (Nat × Bool × List Nat)) :
    inputOf (readEvents reads) = inputBytes reads := by
  induction reads with
  | nil => rfl
  | cons r rs ih =>
      obtain ⟨now, ca, chunk⟩ := r
      simp only [readEvents, List.map_cons, inputOf, inputBytes,
        List.flatten_cons] at ih ⊢
      rw [ih]

theorem run_append (w : Nat → Int) (e1 e2 : List (Nat × EchoEvent)) :
    ∀ s : EchoState, run w s (e1 ++ e2) =
      ((run w (run w s e1).1 e2).1,
        (run w s e1).2 ++ (run w (run w s e1).1 e2).2) := by
  induction e1 with
  | nil => intro s; simp [run]
  | cons p evs ih =>
      intro s
      obtain ⟨now, e⟩ := p
      simp only [List.cons_append, List.append_eq, run]
      rw [ih (stepEvent w now s e).1]
      simp [List.append_assoc]

theorem run_append_snd (w : Nat → Int) (e1 e2 : List (Nat × EchoEvent))
    (s : EchoState) :
    (run w s (e1 ++ e2)).2
      = (run w s e1).2 ++ (run w (run w s e1).1 e2).2 := by
  rw [run_append]

/-- C1: Echo correctness.  For every byte sequence delivered to the inbound
channel, split across any number of `HasBytesAvailable` events (each positive
read appending its bytes to the receive buffer, with an immediate flush attempt
whenever the outbound channel can accept bytes), followed by sufficiently many
`CanAcceptBytes` events on which the outbound channel accepts all bytes
offered, the chunks accepted by the outbound channel are exactly the maximal
runs of input bytes ending in the terminator, byte-for-byte, in order, exactly
once: there is a number `m` of writable events after which the accepted writes
equal `linesOf` of the whole input, where `linesOf` splits the input into its
complete lines — nonempty runs whose first terminator is their last byte —
whose concatenation with the terminator-free remainder reconstructs the
input. -/
theorem echo_correctness_c1 (reads : List (Nat × Bool × List Nat)) :
    ∃ m : Nat,
      acceptedWrites
          (run fullWrite { buf := [], timerFireDate := 0 }
            (readEvents reads ++ drainEvents m)).2
        = linesOf (inputBytes reads) ∧
      List.flatten (linesOf (inputBytes reads)) ++ lineRest (inputBytes reads)
        = inputBytes reads ∧
      memchrLF (lineRest (inputBytes reads)) = none ∧
      ∀ l ∈ linesOf (inputBytes reads), isLine l := by
  have hstruct :=
    linesOf_structure (inputBytes reads).length (inputBytes reads) le_rfl
  obtain ⟨hc1, hc2⟩ :=
    run_full_conserves (readEvents reads) { buf := [], timerFireDate := 0 }
  have hinput :
      List.flatten (acceptedWrites
          (run fullWrite { buf := [], timerFireDate := 0 }
            (readEvents reads)).2) ++
        (run fullWrite { buf := [], timerFireDate := 0 }
          (readEvents reads)).1.buf
      = inputBytes reads := by
    rw [hc1, inputOf_readEvents]
    rfl
  obtain ⟨hd1, hd2⟩ := run_drain
    (run fullWrite { buf := [], timerFireDate := 0 }
      (readEvents reads)).1.buf.length
    (run fullWrite { buf := [], timerFireDate := 0 } (readEvents reads)).1
    le_rfl
  refine ⟨(linesOf (run fullWrite { buf := [], timerFireDate := 0 }
      (readEvents reads)).1.buf).length, ?_, hstruct.1, hstruct.2.1,
      hstruct.2.2⟩
  rw [run_append_snd, acceptedWrites_append, hd1, ← hinput,
    linesOf_flatten_append _ _ hc2]

/-- C2: Flush per-invocation contract.  In a single flush invocation on any
buffer contents against any outbound channel behaviour: if the buffer contains
no terminator byte, no write is attempted; if the first terminator is at
0-indexed offset `k` (the byte there is the terminator and no earlier byte
is — including `k = 0`, the empty line echoed as just the terminator), exactly
one write is attempted, of exactly the `k + 1` bytes `[0, k]` inclusive in a
single call, and no second line is written in the same invocation even if the
buffer contains further terminators. -/
theorem flush_single_line_c2 (write : Nat → Int) (now : Nat) (s : EchoState) :
    (terminator ∉ s.buf → (handleCanAcceptBytes now write s).2 = []) ∧
    (∀ k : Nat, s.buf[k]? = some terminator →
      (∀ j, j < k → s.buf[j]? ≠ some terminator) →
      (handleCanAcceptBytes now write s).2
        = [(s.buf.take (k + 1), write (k + 1))]) := by
  constructor
  · intro h
    rw [handleCanAcceptBytes_none now write s
      ((memchrLF_eq_none_iff s.buf).mpr h)]
  · intro k h1 h2
    have hm : memchrLF s.buf = some k :=
      (memchrLF_eq_some_iff s.buf k).mpr ⟨h1, h2⟩
    rw [handleCanAcceptBytes_some now write s k hm]
    by_cases hw : 0 < write (k + 1)
    · rw [if_pos hw]
    · rw [if_neg hw]

theorem flush_single_line_c2_witness :
    (handleCanAcceptBytes 7 fullWrite
        { buf := [10, 65, 10], timerFireDate := 0 }).2
      = [([10], 1)] := by
  have h := (flush_single_line_c2 fullWrite 7
      { buf := [10, 65, 10], timerFireDate := 0 }).2 0 (by decide)
    (fun j hj => absurd hj (Nat.not_lt_zero j))
  simpa using h

/-- C3: Buffer front-truncation invariant.  A single flush invocation either
leaves the receive buffer completely unchanged (no terminator present, or the
write returned zero or negative), or, when the write returned `written > 0`,
removes exactly the contiguous front `written` bytes the outbound channel
accepted: the accepted front concatenated with the remaining buffer is the
original buffer, so bytes are never reordered and a partially written line's
unwritten suffix stays at the front for the next retry, without duplication or
loss. -/
theorem flush_front_truncation_c3 (write : Nat → Int) (now : Nat)
    (s : EchoState) :
    (memchrLF s.buf = none → (handleCanAcceptBytes now write s).1.buf = s.buf) ∧
    (∀ k : Nat, memchrLF s.buf = some k → write (k + 1) ≤ 0 →
      (handleCanAcceptBytes now write s).1.buf = s.buf) ∧
    (∀ k : Nat, memchrLF s.buf = some k → 0 < write (k + 1) →
      (handleCanAcceptBytes now write s).1.buf
          = s.buf.drop (write (k + 1)).toNat ∧
      s.buf.take (write (k + 1)).toNat ++ (handleCanAcceptBytes now write s).1.buf
          = s.buf) := by
  refine ⟨?_, ?_, ?_⟩
  · intro h
    rw [handleCanAcceptBytes_none now write s h]
  · intro k hm hw
    rw [handleCanAcceptBytes_some now write s k hm, if_neg (not_lt.mpr hw)]
  · intro k hm hw
    rw [handleCanAcceptBytes_some now write s k hm, if_pos hw]
    exact ⟨rfl, List.take_append_drop _ _⟩

theorem flush_front_truncation_c3_witness :
    (handleCanAcceptBytes 0 (fun _ => 2)
        { buf := [111, 107, 10], timerFireDate := 0 }).1.buf = [10] ∧
    [111, 107] ++ [10] = [111, 107, 10] := by
  have h := (flush_front_truncation_c3 (fun _ => 2) 0
      { buf := [111, 107, 10], timerFireDate := 0 }).2.2 2 (by decide) (by decide)
  exact ⟨h.1, by decide⟩

theorem handleCanAcceptBytes_timer (now : Nat) (write : Nat → Int)
    (s : EchoState) :
    (handleCanAcceptBytes now write s).1.timerFireDate
      = now + kTimeOutInSeconds := by
  cases hm : memchrLF s.buf with
  | none => rw [handleCanAcceptBytes_none now write s hm]
  | some k =>
      rw [handleCanAcceptBytes_some now write s k hm]
      by_cases hw : 0 < write (k + 1)
      · rw [if_pos hw]
      · rw [if_neg hw]

/-- C4 (amended): the idle timer is rescheduled to now + 60 seconds
unconditionally on entry to every `HasBytesAvailable` and every
`CanAcceptBytes` handler invocation — so in particular after every successful
read and every successful write — rather than exactly on productive I/O: an
invocation in which no bytes are read or written also extends the timeout
window. -/
theorem timer_reset_on_every_handler_c4 (now : Nat) (write : Nat → Int)
    (s : EchoState) (chunk : List Nat) (ca : Bool) :
    (handleCanAcceptBytes now write s).1.timerFireDate
        = now + kTimeOutInSeconds ∧
    (handleHasBytesAvailable now write ca chunk s).1.timerFireDate
        = now + kTimeOutInSeconds := by
  refine ⟨handleCanAcceptBytes_timer now write s, ?_⟩
  simp only [handleHasBytesAvailable]
  by_cases hlen : 0 < chunk.length
  · rw [if_pos hlen]
    cases ca with
    | false => simp
    | true =>
        simp only [if_pos rfl]
        exact handleCanAcceptBytes_timer now write _
  · rw [if_neg hlen]

/-- C4 counterexample: a `CanAcceptBytes` handler invocation on a buffer
containing no terminator performs no write at all (and reads nothing), yet
still reschedules the idle timer from fire date 0 to now + 60 — refuting the
claim that an event handler invocation in which no bytes are read or written
does not extend the timeout window. -/
theorem timer_reset_c4_counterexample :
    (handleCanAcceptBytes 5 (fun _ => 0)
        { buf := [104], timerFireDate := 0 }).2 = [] ∧
    (handleCanAcceptBytes 5 (fun _ => 0)
        { buf := [104], timerFireDate := 0 }).1.timerFireDate = 65 := by
  decide

/-- Lifecycle-relevant fields of the `EchoContext` struct: the UInt32
`_retainCount` (as a `Nat` that the operations keep below 2^32), presence of
`_inStream`, `_outStream` and `_timer` (a field is `false` once released and
set to NULL), and `_rcvdBytes` (`none` = NULL, otherwise the buffered bytes). -/
structure Ctx where
  retainCount : Nat
  inStream : Bool
  outStream : Bool
  timer : Bool
  rcvdBytes : Option (List Nat)
deriving Repr, DecidableEq

/-- A context allocation: still live, or deallocated by the final release. -/
inductive CtxState where
  | live (c : Ctx)
  | freed
deriving Repr, DecidableEq

/-- `EchoContextClose`: for each of the read stream, the write stream and the
timer, if the field is non-NULL: unset the client / invalidate, unschedule,
close, release, and NULL the field. -/
def EchoContextClose (c : Ctx) : Ctx :=
  let c1 := if c.inStream then { c with inStream := false } else c
  let c2 := if c1.outStream then { c1 with outStream := false } else c1
  if c2.timer then { c2 with timer := false } else c2

/-- `EchoContextRetain` on a non-null context: `_retainCount++` (a UInt32
increment). -/
def EchoContextRetain (c : Ctx) : Ctx :=
  { c with retainCount := (c.retainCount + 1) % 2 ^ 32 }

/-- `EchoContextRelease` on a non-null context: `_retainCount--` (a UInt32
decrement, so a decrement at 0 wraps to 2^32 − 1); if the new count is still
positive, return early and the object survives unchanged otherwise; at zero,
release the buffer and timer, close the streams, and deallocate the context. -/
def EchoContextRelease (c : Ctx) : CtxState :=
  if 0 < (c.retainCount + 2 ^ 32 - 1) % 2 ^ 32 then
    .live { c with retainCount := (c.retainCount + 2 ^ 32 - 1) % 2 ^ 32 }
  else .freed

/-- `_EchoContextHandleErrorOccurred`: a release, and nothing else — no
explicit `EchoContextClose` call.  The second component lists the byte chunks
the handler writes to the outbound channel (none). -/
def handleErrorOccurred (c : Ctx) : CtxState × List (List Nat) :=
  (EchoContextRelease c, [])

/-- `_EchoContextHandleEndEncountered`: `EchoContextClose` then
`EchoContextRelease`; the handler writes nothing to the outbound channel. -/
def handleEndEncountered (c : Ctx) : CtxState × List (List Nat) :=
  (EchoContextRelease (EchoContextClose c), [])

/-- `_EchoContextHandleTimeOut`: `EchoContextClose` then `EchoContextRelease`;
the handler writes nothing to the outbound channel. -/
def handleTimeOut (c : Ctx) : CtxState × List (List Nat) :=
  (EchoContextRelease (EchoContextClose c), [])

/-- `EchoContextCreate`, parametrised by the success of its fallible steps:
`allocOk` (CFAllocatorAllocate), `inOk` / `outOk` (the two streams from
CFStreamCreatePairWithSocket), `bufOk` (CFDataCreateMutable).  The context is
zero-initialised, retained once, the streams and then the empty buffer are
installed; any failure runs `EchoContextRelease` on whatever was built and
returns NULL.  First component: the returned reference (`none` = NULL).
Second component: the fate of the allocated memory (`none` = allocation never
happened, so the cleanup `EchoContextRelease(NULL)` was a no-op). -/
def EchoContextCreate (allocOk inOk outOk bufOk : Bool) :
    Option Ctx × Option CtxState :=
  if allocOk then
    let c1 := EchoContextRetain
      { retainCount := 0, inStream := false, outStream := false,
        timer := false, rcvdBytes := none }
    let c2 : Ctx := { c1 with inStream := inOk, outStream := outOk }
    if inOk && outOk then
      if bufOk then
        (some { c2 with rcvdBytes := some [] },
          some (.live { c2 with rcvdBytes := some [] }))
      else (none, some (EchoContextRelease c2))
    else (none, some (EchoContextRelease c2))
  else (none, none)

/-- Pointer-level `EchoContextRetain`: guarded by `if (context != NULL)`, a
NULL argument is returned unchanged with nothing done. -/
def EchoContextRetainP : Option Ctx → Option Ctx
  | none => none
  | some c => some (EchoContextRetain c)

/-- Pointer-level `EchoContextRelease`: guarded by `if (context != NULL)`, a
NULL argument does nothing. -/
def EchoContextReleaseP : Option Ctx → Option CtxState
  | none => none
  | some c => some (EchoContextRelease c)

/-- Pointer-level `EchoContextClose`: the source dereferences its argument
unconditionally (`((EchoContext*)context)->_inStream` with no NULL check), so
a NULL argument is a null-pointer dereference, modelled as an error. -/
def EchoContextCloseP : Option Ctx → Except Unit Ctx
  | none => .error ()
  | some c => .ok (EchoContextClose c)

theorem release_decrements (c : Ctx) (h1 : 2 ≤ c.retainCount)
    (h2 : c.retainCount < 2 ^ 32) :
    EchoContextRelease c = .live { c with retainCount := c.retainCount - 1 } := by
  unfold EchoContextRelease
  have hmod : (c.retainCount + 2 ^ 32 - 1) % 2 ^ 32 = c.retainCount - 1 := by
    omega
  rw [hmod, if_pos (by omega)]

theorem release_final (c : Ctx) (h : c.retainCount = 1) :
    EchoContextRelease c = .freed := by
  unfold EchoContextRelease
  have hmod : (c.retainCount + 2 ^ 32 - 1) % 2 ^ 32 = 0 := by omega
  rw [hmod, if_neg (by omega)]

theorem close_fields (n : Nat) (i o t : Bool) (b : Option (List Nat)) :
    EchoContextClose ⟨n, i, o, t, b⟩ = ⟨n, false, false, false, b⟩ := by
  cases i <;> cases o <;> cases t <;> simp [EchoContextClose]

/-- C5 counterexample: on an ErrorOccurred event the handler does not call
Close before the release.  On a context with retain count 2 (another owner
outstanding), the handler leaves a live context whose inbound and outbound
channels are still attached — whereas an explicit Close before the release
would have detached them (second conjunct).  This refutes the claim that the
handler closes the context explicitly before releasing it. -/
theorem error_occurred_c5_counterexample :
    handleErrorOccurred ⟨2, true, true, true, some []⟩
      = (.live ⟨1, true, true, true, some []⟩, []) ∧
    (EchoContextClose ⟨2, true, true, true, some []⟩).inStream = false := by
  decide

/-- C5 (amended): on an ErrorOccurred event from either channel the handler
releases the context directly, with no retry, no distinction by cause, and no
explicit Close before the release: when other references are outstanding the
channels stay attached (the surviving state is unchanged except the
decremented count), and only a final release (count 1 → 0) deallocates — so
teardown is prompt only when the handler's reference was the last one. -/
theorem error_occurred_release_only_c5 (c : Ctx) (h1 : 1 ≤ c.retainCount)
    (h2 : c.retainCount < 2 ^ 32) :
    (handleErrorOccurred c).2 = [] ∧
    (c.retainCount = 1 → (handleErrorOccurred c).1 = .freed) ∧
    (2 ≤ c.retainCount →
      (handleErrorOccurred c).1
        = .live { c with retainCount := c.retainCount - 1 }) := by
  refine ⟨rfl, ?_, ?_⟩
  · intro h
    simp only [handleErrorOccurred]
    rw [release_final c h]
  · intro h
    simp only [handleErrorOccurred]
    rw [release_decrements c h h2]

theorem error_occurred_release_only_c5_witness :
    (handleErrorOccurred ⟨2, true, true, true, some []⟩).1
      = .live ⟨1, true, true, true, some []⟩ := by
  have h := (error_occurred_release_only_c5 ⟨2, true, true, true, some []⟩
    (by norm_num) (by norm_num)).2.2 (by norm_num)
  simpa using h

/-- C6: on an EndEncountered event and on a Timer Fired event the handler
performs Close and then exactly one Release: both handlers behave identically;
nothing is written to the outbound channel, so buffered-but-unsent bytes are
discarded regardless of the buffer contents; the context is deallocated
exactly when the released reference was the last one, and any surviving state
has both channels and the timer absent with the count decremented by one. -/
theorem end_timeout_close_release_c6 (c : Ctx) (h1 : 1 ≤ c.retainCount)
    (h2 : c.retainCount < 2 ^ 32) :
    handleEndEncountered c = handleTimeOut c ∧
    (handleEndEncountered c).2 = [] ∧
    (c.retainCount = 1 → (handleEndEncountered c).1 = .freed) ∧
    (2 ≤ c.retainCount →
      (handleEndEncountered c).1
        = .live { c with retainCount := c.retainCount - 1, inStream := false, outStream := false, timer := false }) := by
  obtain ⟨n, i, o, t, b⟩ := c
  refine ⟨rfl, rfl, ?_, ?_⟩
  · intro h
    simp only [handleEndEncountered, close_fields]
    rw [release_final _ (by simpa using h)]
  · intro h
    simp only [handleEndEncountered, close_fields]
    rw [release_decrements _ (by simpa using h) (by simpa using h2)]

theorem end_timeout_close_release_c6_witness :
    (handleEndEncountered ⟨1, true, true, true, some [104, 105]⟩).1 = .freed ∧
    (handleEndEncountered ⟨1, true, true, true, some [104, 105]⟩).2 = [] := by
  have h := end_timeout_close_release_c6 ⟨1, true, true, true, some [104, 105]⟩
    (by norm_num) (by norm_num)
  exact ⟨h.2.2.1 rfl, h.2.1⟩

/-- C7: Create postconditions.  For every combination of outcomes of the
fallible construction steps, `EchoContextCreate` either (all steps succeed)
returns a usable context with retain count 1, both streams attached, and an
allocated empty receive buffer, or (any step fails) returns NULL with the
partially constructed state fully released: the allocation was either never
made or has been freed by the cleanup release. -/
theorem create_postconditions_c7 (allocOk inOk outOk bufOk : Bool) :
    (allocOk = true → inOk = true → outOk = true → bufOk = true →
      EchoContextCreate allocOk inOk outOk bufOk
        = (some ⟨1, true, true, false, some []⟩,
          some (.live ⟨1, true, true, false, some []⟩))) ∧
    ((allocOk = false ∨ inOk = false ∨ outOk = false ∨ bufOk = false) →
      (EchoContextCreate allocOk inOk outOk bufOk).1 = none ∧
      ((EchoContextCreate allocOk inOk outOk bufOk).2 = none ∨
        (EchoContextCreate allocOk inOk outOk bufOk).2 = some .freed)) := by
  cases allocOk <;> cases inOk <;> cases outOk <;> cases bufOk <;> decide

theorem create_postconditions_c7_witness :
    (EchoContextCreate true true true false).1 = none ∧
    ((EchoContextCreate true true true false).2 = none ∨
      (EchoContextCreate true true true false).2 = some .freed) :=
  (create_postconditions_c7 true true true false).2
    (Or.inr (Or.inr (Or.inr rfl)))

/-- C8: Close is idempotent.  After one `EchoContextClose` on a (non-null)
context both channels and the timer are absent while the retain count and the
receive buffer are untouched, and a second Close leaves the state unchanged —
in particular Close on a context whose channels are already absent is a no-op
for that part. -/
theorem close_idempotent_c8 (c : Ctx) :
    (EchoContextClose c).inStream = false ∧
    (EchoContextClose c).outStream = false ∧
    (EchoContextClose c).timer = false ∧
    (EchoContextClose c).retainCount = c.retainCount ∧
    (EchoContextClose c).rcvdBytes = c.rcvdBytes ∧
    EchoContextClose (EchoContextClose c) = EchoContextClose c := by
  obtain ⟨n, i, o, t, b⟩ := c
  rw [close_fields, close_fields]
  simp [close_fields]

/-- C9 counterexample: `EchoContextRelease` contains no assertion or debug
guard.  A release on a context whose retain count is already 0 silently wraps
the unsigned count to 2^32 − 1 and the object is not deallocated — the exact
silent corruption the claim says an assertion guard makes detectable. -/
theorem release_at_zero_c9_counterexample :
    EchoContextRelease ⟨0, false, false, false, some []⟩
      = .live ⟨2 ^ 32 - 1, false, false, false, some []⟩ := by
  unfold EchoContextRelease
  norm_num

/-- C9 (amended): calling Release when the retain count is already 0 is not
detected by any assertion or debug guard; the unsigned retain count wraps
modulo 2^32 to 2^32 − 1, the early-return test sees a positive count, and the
object is not deallocated at that release — for any contents of the other
fields. -/
theorem release_at_zero_wraps_c9 (i o t : Bool) (b : Option (List Nat)) :
    EchoContextRelease ⟨0, i, o, t, b⟩
      = .live ⟨2 ^ 32 - 1, i, o, t, b⟩ := by
  unfold EchoContextRelease
  norm_num

/-- C10: null-argument asymmetry at the public interface.  `EchoContextRetain`
and `EchoContextRelease` are guarded no-ops on a NULL context (Retain returns
its argument unchanged), while `EchoContextClose` dereferences its argument
unconditionally: on NULL it is a null-pointer dereference (modelled as the
error outcome), so it carries the unstated precondition that the context is
non-null — on any non-null context it proceeds normally. -/
theorem null_argument_asymmetry_c10 :
    EchoContextRetainP none = none ∧
    EchoContextReleaseP none = none ∧
    EchoContextCloseP none = .error () ∧
    ∀ c : Ctx, EchoContextCloseP (some c) = .ok (EchoContextClose c) := by
  exact ⟨rfl, rfl, rfl, fun c => rfl⟩
